import Mathlib

/-! The namespaced Merkle tree hasher (`defaulthasher/hasher.go`).

A shallow embedding of the Go package `defaulthasher` and the properties of its
leaf hashing, node hashing and empty root.

Modelling conventions.

* A Go `[]byte` argument is a `Slice`: its elements, and the spare elements of its backing
  array between its length and its capacity. A slice expression `s[lo:hi]` on a slice is in
  range exactly when `lo ≤ hi ≤ cap(s)`, and `s[lo:]` exactly when `lo ≤ len(s)`.
* The package only reads the slices it makes (`append`, `Write`, `bytes.Compare`) and
  never writes to its arguments, so the value of a slice expression and the slice a method
  returns are given by their elements, a `List Byte`. Where a returned digest is passed
  on as a child, it is passed with no spare capacity; for children of at least `2 * N`
  bytes the spare capacity makes no difference (`hashNode_spare`).
* A run-time panic (slice bounds out of range) is the result `none`.
* `uint8` arithmetic is arithmetic on `Nat` reduced modulo `256`.
* The embedded `crypto.Hash` is represented by the digest function it selects; a running
  `hash.Hash` is the pair of that function and the bytes written so far. The selected
  algorithm is taken to be linked into the binary, so that `crypto.Hash.New` returns.
* The field `NamespaceLen` is a `uint8`; it is a `Nat` here, and the results below hold
  for every value, in particular for the values `0` to `255` of the field.
-/

namespace defaulthasher

/-- A Go `byte`, that is a `uint8`. -/
abbrev Byte := Fin 256

/-! ## Go primitives used by the package -/

/-- A Go `[]byte`: the elements `data` (indices `0` to `len`), and the elements `spare`
of the backing array that lie between the length and the capacity of the slice. -/
structure Slice where
  data : List Byte
  spare : List Byte

/-- Go `len(s)`. -/
def Slice.len (s : Slice) : Nat :=
  s.data.length

/-- Go `cap(s)`. -/
def Slice.cap (s : Slice) : Nat :=
  s.data.length + s.spare.length

/-- The backing array of a slice, from its first element up to its capacity. -/
def Slice.array (s : Slice) : List Byte :=
  s.data ++ s.spare

/-- The slice expression `s[:hi]`: in range when `hi ≤ cap(s)`. -/
def sliceTo (s : Slice) (hi : Nat) : Option (List Byte) :=
  if hi ≤ s.cap then some (s.array.take hi) else none

/-- The slice expression `s[lo:]`: in range when `lo ≤ len(s)`. -/
def sliceFrom (s : Slice) (lo : Nat) : Option (List Byte) :=
  if lo ≤ s.len then some (s.data.drop lo) else none

/-- The slice expression `s[lo:hi]`: in range when `lo ≤ hi ≤ cap(s)`. -/
def slice (s : Slice) (lo hi : Nat) : Option (List Byte) :=
  if lo ≤ hi ∧ hi ≤ s.cap then some ((s.array.drop lo).take (hi - lo)) else none

/-- Go `bytes.Compare`: lexicographic comparison of two byte slices, with result
`-1`, `0` or `+1`. -/
def bytesCompare : List Byte → List Byte → Int
  | [], [] => 0
  | [], _ :: _ => -1
  | _ :: _, [] => 1
  | a :: as, b :: bs =>
    if a < b then -1 else if b < a then 1 else bytesCompare as bs

/-- Go `bytes.Repeat(b, count)`: `count` copies of `b`, concatenated. -/
def bytesRepeat (b : List Byte) : Nat → List Byte
  | 0 => []
  | count + 1 => b ++ bytesRepeat b count

/-- A running digest (Go `hash.Hash`): the digest function of the algorithm and the
bytes written to it so far. -/
structure HashState where
  alg : List Byte → List Byte
  written : List Byte

/-- The method `Write` of `hash.Hash` adds more data to the running digest. -/
def HashState.Write (h : HashState) (p : List Byte) : HashState :=
  { h with written := h.written ++ p }

/-- The method `Sum` of `hash.Hash` appends the digest of the data written so far to `b`. -/
def HashState.Sum (h : HashState) (b : List Byte) : List Byte :=
  b ++ h.alg h.written

/-! ## The package `defaulthasher` -/

/-- The constant `LeafPrefix`. -/
def LeafPrefix : Byte := 0

/-- The constant `NodePrefix`. -/
def NodePrefix : Byte := 1

/-- The struct `DefaultHasher`: the embedded `crypto.Hash`, given by the digest function
it selects, and the field `NamespaceLen` (a `uint8`). -/
structure DefaultHasher where
  Hash : List Byte → List Byte
  NamespaceLen : Nat

/-- The method `New` of the embedded `crypto.Hash`: a fresh running digest. -/
def DefaultHasher.New (n : DefaultHasher) : HashState :=
  { alg := n.Hash, written := [] }

/-- The method `NamespaceSize`. -/
def DefaultHasher.NamespaceSize (n : DefaultHasher) : Nat :=
  n.NamespaceLen

/-- The constructor function `New(nidLen, baseHasher)`. -/
def New (nidLen : Nat) (baseHasher : List Byte → List Byte) : DefaultHasher :=
  { Hash := baseHasher, NamespaceLen := nidLen }

/-- Modelled from the spec: the type `namespace.IntervalDigest` of the package `namespace`,
which is not part of the sources at hand. A namespaced digest consists of `minNamespace`,
`maxNamespace` and the `hash` of the base digest algorithm. -/
structure IntervalDigest where
  min : List Byte
  max : List Byte
  digest : List Byte

/-- Modelled from the spec: the constructor `namespace.NewIntervalDigest(min, max, digest)`,
which is not part of the sources at hand. -/
def NewIntervalDigest (min max digest : List Byte) : IntervalDigest :=
  { min := min, max := max, digest := digest }

/-- Modelled from the spec: the serialized form of a namespaced digest,
`minNamespace || maxNamespace || baseHash`. -/
def IntervalDigest.Bytes (d : IntervalDigest) : List Byte :=
  d.min ++ d.max ++ d.digest

/-- The method `EmptyRoot`. -/
def DefaultHasher.EmptyRoot (n : DefaultHasher) : IntervalDigest :=
  let emptyNs := bytesRepeat [0] n.NamespaceLen
  NewIntervalDigest emptyNs emptyNs (n.New.Sum [])

/-- The body of `HashLeaf` up to its last statement: the running digest `h` and the
slice `res` at the point of `return h.Sum(res)`. -/
def DefaultHasher.HashLeafState (n : DefaultHasher) (leaf : Slice) :
    Option (HashState × List Byte) := do
  let h := n.New
  let nID ← sliceTo leaf n.NamespaceLen
  let data ← sliceFrom leaf n.NamespaceLen
  let res := ([] ++ nID) ++ nID
  let h := h.Write [LeafPrefix]
  let h := h.Write data
  pure (h, res)

/-- The method `HashLeaf`. -/
def DefaultHasher.HashLeaf (n : DefaultHasher) (leaf : Slice) : Option (List Byte) :=
  (n.HashLeafState leaf).map fun p => p.1.Sum p.2

/-- The function `max` of the package. -/
def max (ns ns2 : List Byte) : List Byte :=
  if bytesCompare ns ns2 ≥ 0 then ns else ns2

/-- The function `min` of the package. -/
def min (ns ns2 : List Byte) : List Byte :=
  if bytesCompare ns ns2 ≤ 0 then ns else ns2

/-- The body of `HashNode` up to its last statement: the running digest `h` and the
slice `res` at the point of `return h.Sum(res)`. -/
def DefaultHasher.HashNodeState (n : DefaultHasher) (l r : Slice) :
    Option (HashState × List Byte) := do
  let h := n.New
  let flagLen := (2 * n.NamespaceLen) % 256
  let leftMinNs ← sliceTo l n.NamespaceLen
  let leftMaxNs ← slice l n.NamespaceLen flagLen
  let rightMinNs ← sliceTo r n.NamespaceLen
  let rightMaxNs ← slice r n.NamespaceLen flagLen
  let minNs := min leftMinNs rightMinNs
  let maxNs := max leftMaxNs rightMaxNs
  let res := ([] ++ minNs) ++ maxNs
  let b := (([] ++ [NodePrefix]) ++ l.data) ++ r.data
  let h := h.Write b
  pure (h, res)

/-- The method `HashNode`. -/
def DefaultHasher.HashNode (n : DefaultHasher) (l r : Slice) : Option (List Byte) :=
  (n.HashNodeState l r).map fun p => p.1.Sum p.2

/-! ## A toy base digest -/

/-- The toy digest of the examples: the sum of all bytes modulo `256`, as one byte. -/
def sumDigest (bs : List Byte) : List Byte :=
  [Fin.ofNat ((bs.map Fin.val).sum % 256)]

/-! ## Trees of digests

The tree builder is outside the package: it produces leaf digests first and feeds them
pairwise, bottom layer to top, into node hashing. -/

/-- A non-empty binary tree whose leaves are raw leaves (`namespaceID || data`). -/
inductive Tree where
  | leaf (raw : List Byte)
  | node (left right : Tree)

/-- The raw leaves of a tree, from left to right. -/
def Tree.leaves : Tree → List (List Byte)
  | .leaf raw => [raw]
  | .node left right => left.leaves ++ right.leaves

/-- Bottom-up evaluation of a tree: `HashLeaf` at each leaf, `HashNode` at each internal
node; a panic anywhere makes the evaluation fail. -/
def Tree.root (n : DefaultHasher) : Tree → Option (List Byte)
  | .leaf raw => n.HashLeaf ⟨raw, []⟩
  | .node left right =>
    match left.root n, right.root n with
    | some x, some y => n.HashNode ⟨x, []⟩ ⟨y, []⟩
    | _, _ => none

/-- A byte string is produced by the hasher `n` when it is returned by `HashLeaf` on some
leaf or by `HashNode` on some pair of children. -/
def Produced (n : DefaultHasher) (d : List Byte) : Prop :=
  (∃ leaf, n.HashLeaf leaf = some d) ∨ (∃ l r, n.HashNode l r = some d)

/-! ## Calls as steps on a store

The methods take their receiver by pointer (`n *DefaultHasher`) and work on a running
digest that `n.New()` allocates. A call is therefore a step on a store that holds the
fields of the hasher and every running digest allocated so far. -/

/-- The store: the fields of the hasher behind the receiver pointer, and the running
digests allocated so far; the address of a running digest is its index in `heap`. -/
structure World where
  hasher : DefaultHasher
  heap : List HashState

/-- The statement `h := n.New()`: a running digest with nothing written is allocated at the
next free address, which is returned. -/
def World.New (w : World) : World × Nat :=
  ({ w with heap := w.heap ++ [w.hasher.New] }, w.heap.length)

/-- The statement `h.Write(p)` for the running digest at address `h`. -/
def World.Write (w : World) (h : Nat) (p : List Byte) : World :=
  { w with heap := w.heap.modify (fun s => s.Write p) h }

/-- The expression `h.Sum(b)` for the running digest at address `h`. -/
def World.Sum (w : World) (h : Nat) (b : List Byte) : Option (List Byte) :=
  (w.heap.get? h).map fun s => s.Sum b

/-- The method `HashLeaf`, statement by statement, as a step on the store. -/
def World.HashLeaf (w : World) (leaf : Slice) : World × Option (List Byte) :=
  let (w1, h) := w.New
  match sliceTo leaf w1.hasher.NamespaceLen with
  | none => (w1, none)
  | some nID =>
    match sliceFrom leaf w1.hasher.NamespaceLen with
    | none => (w1, none)
    | some data =>
      let res := ([] ++ nID) ++ nID
      let w2 := w1.Write h [LeafPrefix]
      let w3 := w2.Write h data
      (w3, w3.Sum h res)

/-- The method `HashNode`, statement by statement, as a step on the store. -/
def World.HashNode (w : World) (l r : Slice) : World × Option (List Byte) :=
  let (w1, h) := w.New
  let flagLen := (2 * w1.hasher.NamespaceLen) % 256
  match sliceTo l w1.hasher.NamespaceLen, slice l w1.hasher.NamespaceLen flagLen,
      sliceTo r w1.hasher.NamespaceLen, slice r w1.hasher.NamespaceLen flagLen with
  | some leftMinNs, some leftMaxNs, some rightMinNs, some rightMaxNs =>
    let minNs := min leftMinNs rightMinNs
    let maxNs := max leftMaxNs rightMaxNs
    let res := ([] ++ minNs) ++ maxNs
    let b := (([] ++ [NodePrefix]) ++ l.data) ++ r.data
    let w2 := w1.Write h b
    (w2, w2.Sum h res)
  | _, _, _, _ => (w1, none)

/-- The method `EmptyRoot`, as a step on the store. -/
def World.EmptyRoot (w : World) : World × Option IntervalDigest :=
  let emptyNs := bytesRepeat [0] w.hasher.NamespaceLen
  let (w1, h) := w.New
  (w1, (w1.Sum h []).map fun digest => NewIntervalDigest emptyNs emptyNs digest)

/-- A call of one of the three hashing methods, with its arguments. -/
inductive Call where
  | HashLeaf (leaf : Slice)
  | HashNode (l r : Slice)
  | EmptyRoot

/-- The result of a call: the byte slice of `HashLeaf` and `HashNode`, or the digest of
`EmptyRoot`; `none` is a panic. -/
inductive Ret where
  | bytes (out : Option (List Byte))
  | digest (d : Option IntervalDigest)

/-- One call, as a step on the store: the store after the call and the result. -/
def World.call (w : World) : Call → World × Ret
  | .HashLeaf leaf => ((w.HashLeaf leaf).1, .bytes (w.HashLeaf leaf).2)
  | .HashNode l r => ((w.HashNode l r).1, .bytes (w.HashNode l r).2)
  | .EmptyRoot => (w.EmptyRoot.1, .digest w.EmptyRoot.2)

/-- A sequence of calls, made one after the other: the store at the end and the results,
in order. -/
def World.run (w : World) : List Call → World × List Ret
  | [] => (w, [])
  | c :: cs => (((w.call c).1.run cs).1, (w.call c).2 :: ((w.call c).1.run cs).2)

/-- The result that a call has as a function of the hasher's fields and its arguments
alone. -/
def DefaultHasher.ret (n : DefaultHasher) : Call → Ret
  | .HashLeaf leaf => .bytes (n.HashLeaf leaf)
  | .HashNode l r => .bytes (n.HashNode l r)
  | .EmptyRoot => .digest (some n.EmptyRoot)

/-! ## `bytes.Compare` and the lexicographic order -/

theorem bytesCompare_spec (a b : List Byte) :
    (bytesCompare a b = -1 ∧ a < b) ∨ (bytesCompare a b = 0 ∧ a = b) ∨
      (bytesCompare a b = 1 ∧ b < a) := by
  induction a generalizing b with
  | nil =>
    cases b with
    | nil => exact Or.inr (Or.inl ⟨rfl, rfl⟩)
    | cons y ys => exact Or.inl ⟨rfl, List.nil_lt_cons y ys⟩
  | cons x xs ih =>
    cases b with
    | nil => exact Or.inr (Or.inr ⟨rfl, List.nil_lt_cons x xs⟩)
    | cons y ys =>
      by_cases hxy : x < y
      · exact Or.inl ⟨by simp [bytesCompare, hxy], List.Lex.rel hxy⟩
      · by_cases hyx : y < x
        · exact Or.inr (Or.inr ⟨by simp [bytesCompare, hxy, hyx], List.Lex.rel hyx⟩)
        · have hEq : x = y := le_antisymm (not_lt.mp hyx) (not_lt.mp hxy)
          subst hEq
          have hc : bytesCompare (x :: xs) (x :: ys) = bytesCompare xs ys := by
            simp [bytesCompare]
          rcases ih ys with h | h | h
          · exact Or.inl ⟨hc.trans h.1, List.Lex.cons h.2⟩
          · exact Or.inr (Or.inl ⟨hc.trans h.1, by rw [h.2]⟩)
          · exact Or.inr (Or.inr ⟨hc.trans h.1, List.Lex.cons h.2⟩)

theorem bytesCompare_le_zero_iff (a b : List Byte) : bytesCompare a b ≤ 0 ↔ a ≤ b := by
  rcases bytesCompare_spec a b with h | h | h
  · simp [h.1, h.2.le]
  · simp [h.1, h.2.le]
  · simp [h.1, not_le.mpr h.2]

theorem bytesCompare_ge_zero_iff (a b : List Byte) : bytesCompare a b ≥ 0 ↔ b ≤ a := by
  rcases bytesCompare_spec a b with h | h | h
  · simp [h.1, not_le.mpr h.2]
  · simp [h.1, h.2.ge]
  · simp [h.1, h.2.le]

/-- The package's `min` is the minimum of the lexicographic order on byte strings. -/
theorem min_eq (a b : List Byte) : min a b = Min.min a b := by
  unfold min
  by_cases h : a ≤ b
  · rw [if_pos ((bytesCompare_le_zero_iff a b).mpr h), min_eq_left h]
  · rw [if_neg (fun hc => h ((bytesCompare_le_zero_iff a b).mp hc)),
      min_eq_right (le_of_not_le h)]

/-- The package's `max` is the maximum of the lexicographic order on byte strings. -/
theorem max_eq (a b : List Byte) : max a b = Max.max a b := by
  unfold max
  by_cases h : b ≤ a
  · rw [if_pos ((bytesCompare_ge_zero_iff a b).mpr h), max_eq_left h]
  · rw [if_neg (fun hc => h ((bytesCompare_ge_zero_iff a b).mp hc)),
      max_eq_right (le_of_not_le h)]


/-! ## Closed forms of `HashLeaf` and `HashNode` -/

theorem hashLeafState_of_le (n : DefaultHasher) (leaf : Slice)
    (h : n.NamespaceLen ≤ leaf.len) :
    n.HashLeafState leaf =
      some ({ alg := n.Hash, written := LeafPrefix :: leaf.data.drop n.NamespaceLen },
        leaf.data.take n.NamespaceLen ++ leaf.data.take n.NamespaceLen) := by
  have h0 : n.NamespaceLen ≤ leaf.data.length := h
  have hcap : n.NamespaceLen ≤ leaf.cap := Nat.le_trans h0 (Nat.le_add_right _ _)
  have htake : leaf.array.take n.NamespaceLen = leaf.data.take n.NamespaceLen :=
    List.take_append_of_le_length h0
  simp [DefaultHasher.HashLeafState, sliceTo, sliceFrom, h, hcap, htake, DefaultHasher.New,
    HashState.Write]

theorem hashLeafState_of_lt (n : DefaultHasher) (leaf : Slice)
    (h : leaf.len < n.NamespaceLen) : n.HashLeafState leaf = none := by
  have h2 : ¬ n.NamespaceLen ≤ leaf.len := Nat.not_le.mpr h
  by_cases hcap : n.NamespaceLen ≤ leaf.cap
  · simp [DefaultHasher.HashLeafState, sliceTo, sliceFrom, hcap, h2]
  · simp [DefaultHasher.HashLeafState, sliceTo, hcap]

theorem hashLeaf_of_le (n : DefaultHasher) (leaf : Slice)
    (h : n.NamespaceLen ≤ leaf.len) :
    n.HashLeaf leaf =
      some (leaf.data.take n.NamespaceLen ++ leaf.data.take n.NamespaceLen ++
        n.Hash (LeafPrefix :: leaf.data.drop n.NamespaceLen)) := by
  simp [DefaultHasher.HashLeaf, hashLeafState_of_le n leaf h, HashState.Sum]

theorem hashLeaf_of_lt (n : DefaultHasher) (leaf : Slice)
    (h : leaf.len < n.NamespaceLen) : n.HashLeaf leaf = none := by
  simp [DefaultHasher.HashLeaf, hashLeafState_of_lt n leaf h]

/-- The spare capacity of a leaf has no influence on `HashLeaf`. -/
theorem hashLeaf_spare (n : DefaultHasher) (data spare : List Byte) :
    n.HashLeaf ⟨data, spare⟩ = n.HashLeaf ⟨data, []⟩ := by
  by_cases h : n.NamespaceLen ≤ data.length
  · rw [hashLeaf_of_le n ⟨data, spare⟩ h, hashLeaf_of_le n ⟨data, []⟩ h]
  · rw [hashLeaf_of_lt n ⟨data, spare⟩ (Nat.not_le.mp h),
      hashLeaf_of_lt n ⟨data, []⟩ (Nat.not_le.mp h)]

theorem hashNodeState_of_le (n : DefaultHasher) (l r : Slice)
    (hN : n.NamespaceLen ≤ 127) (hl : 2 * n.NamespaceLen ≤ l.cap)
    (hr : 2 * n.NamespaceLen ≤ r.cap) :
    n.HashNodeState l r =
      some ({ alg := n.Hash, written := NodePrefix :: (l.data ++ r.data) },
        min (l.array.take n.NamespaceLen) (r.array.take n.NamespaceLen) ++
          max ((l.array.drop n.NamespaceLen).take n.NamespaceLen)
            ((r.array.drop n.NamespaceLen).take n.NamespaceLen)) := by
  have hmod : 2 * n.NamespaceLen % 256 = 2 * n.NamespaceLen := Nat.mod_eq_of_lt (by omega)
  have hsub : 2 * n.NamespaceLen - n.NamespaceLen = n.NamespaceLen := by omega
  have h1 : n.NamespaceLen ≤ l.cap := by omega
  have h2 : n.NamespaceLen ≤ r.cap := by omega
  have h3 : n.NamespaceLen ≤ 2 * n.NamespaceLen := by omega
  simp [DefaultHasher.HashNodeState, sliceTo, slice, hmod, hsub, h1, h2, h3, hl, hr,
    DefaultHasher.New, HashState.Write]

theorem hashNodeState_isSome_iff (n : DefaultHasher) (l r : Slice) :
    (n.HashNodeState l r).isSome ↔
      n.NamespaceLen ≤ 127 ∧ 2 * n.NamespaceLen ≤ l.cap ∧
        2 * n.NamespaceLen ≤ r.cap := by
  constructor
  · intro h
    by_contra hc
    have hnone : n.HashNodeState l r = none := by
      by_cases c1 : n.NamespaceLen ≤ l.cap
      · by_cases c2 : n.NamespaceLen ≤ 2 * n.NamespaceLen % 256 ∧
            2 * n.NamespaceLen % 256 ≤ l.cap
        · by_cases c3 : n.NamespaceLen ≤ r.cap
          · have c4 : r.cap < 2 * n.NamespaceLen % 256 := by omega
            simp [DefaultHasher.HashNodeState, sliceTo, slice, c1, c2, c3, c4]
          · simp [DefaultHasher.HashNodeState, sliceTo, slice, c1, c2, c3]
        · simp [DefaultHasher.HashNodeState, sliceTo, slice, c1, c2]
      · simp [DefaultHasher.HashNodeState, sliceTo, c1]
    rw [hnone] at h
    exact absurd h (by simp)
  · rintro ⟨hN, hl, hr⟩
    rw [hashNodeState_of_le n l r hN hl hr]
    rfl

theorem hashNode_of_le (n : DefaultHasher) (l r : Slice)
    (hN : n.NamespaceLen ≤ 127) (hl : 2 * n.NamespaceLen ≤ l.cap)
    (hr : 2 * n.NamespaceLen ≤ r.cap) :
    n.HashNode l r =
      some (min (l.array.take n.NamespaceLen) (r.array.take n.NamespaceLen) ++
        max ((l.array.drop n.NamespaceLen).take n.NamespaceLen)
          ((r.array.drop n.NamespaceLen).take n.NamespaceLen) ++
        n.Hash (NodePrefix :: (l.data ++ r.data))) := by
  simp [DefaultHasher.HashNode, hashNodeState_of_le n l r hN hl hr, HashState.Sum]

theorem hashNode_isSome_iff (n : DefaultHasher) (l r : Slice) :
    (n.HashNode l r).isSome ↔
      n.NamespaceLen ≤ 127 ∧ 2 * n.NamespaceLen ≤ l.cap ∧
        2 * n.NamespaceLen ≤ r.cap := by
  rw [← hashNodeState_isSome_iff]
  simp [DefaultHasher.HashNode]

theorem min_eq_or (a b : List Byte) : min a b = a ∨ min a b = b := by
  unfold min
  split
  · exact Or.inl rfl
  · exact Or.inr rfl

theorem max_eq_or (a b : List Byte) : max a b = a ∨ max a b = b := by
  unfold max
  split
  · exact Or.inl rfl
  · exact Or.inr rfl

theorem min_length (a b : List Byte) (k : Nat) (ha : a.length = k) (hb : b.length = k) :
    (min a b).length = k := by
  rcases min_eq_or a b with h | h <;> rw [h] <;> assumption

theorem max_length (a b : List Byte) (k : Nat) (ha : a.length = k) (hb : b.length = k) :
    (max a b).length = k := by
  rcases max_eq_or a b with h | h <;> rw [h] <;> assumption

/-- The three fields of a serialized digest `x ++ y ++ z` whose first two parts have
length `k`. -/
theorem fields_of_append (x y z : List Byte) (k : Nat) (hx : x.length = k)
    (hy : y.length = k) :
    (x ++ y ++ z).take k = x ∧ ((x ++ y ++ z).drop k).take k = y ∧
      (x ++ y ++ z).drop (2 * k) = z := by
  subst hx
  refine ⟨?_, ?_, ?_⟩
  · rw [List.append_assoc, List.take_left]
  · rw [List.append_assoc, List.drop_left, ← hy, List.take_left]
  · have h2 : 2 * x.length = (x ++ y).length := by rw [List.length_append, hy]; omega
    rw [h2, List.drop_left]

theorem array_length (s : Slice) : s.array.length = s.cap := by
  simp [Slice.array, Slice.cap]

/-- The range fields that `HashNode` slices from a child of capacity at least `2 * N`
have `N` bytes each. -/
theorem range_lengths (s : Slice) (k : Nat) (h : 2 * k ≤ s.cap) :
    (s.array.take k).length = k ∧ ((s.array.drop k).take k).length = k := by
  have hlen := array_length s
  constructor
  · rw [List.length_take]; omega
  · rw [List.length_take, List.length_drop]; omega

/-- Whenever `HashNode` returns, the configuration and the children are in range and the
result is given by the closed form. -/
theorem hashNode_some_inv (n : DefaultHasher) (l r : Slice) (d : List Byte)
    (h : n.HashNode l r = some d) :
    n.NamespaceLen ≤ 127 ∧ 2 * n.NamespaceLen ≤ l.cap ∧ 2 * n.NamespaceLen ≤ r.cap ∧
      d = min (l.array.take n.NamespaceLen) (r.array.take n.NamespaceLen) ++
        max ((l.array.drop n.NamespaceLen).take n.NamespaceLen)
          ((r.array.drop n.NamespaceLen).take n.NamespaceLen) ++
        n.Hash (NodePrefix :: (l.data ++ r.data)) := by
  have hs : (n.HashNode l r).isSome := by rw [h]; rfl
  obtain ⟨hN, hl, hr⟩ := (hashNode_isSome_iff n l r).mp hs
  refine ⟨hN, hl, hr, ?_⟩
  rw [hashNode_of_le n l r hN hl hr] at h
  exact (Option.some.inj h).symm

/-- The fields of the digest returned by `HashNode`, in terms of the lexicographic order. -/
theorem hashNode_fields (n : DefaultHasher) (l r : Slice) (d : List Byte)
    (h : n.HashNode l r = some d) :
    d.take n.NamespaceLen = Min.min (l.array.take n.NamespaceLen) (r.array.take n.NamespaceLen) ∧
      (d.drop n.NamespaceLen).take n.NamespaceLen =
        Max.max ((l.array.drop n.NamespaceLen).take n.NamespaceLen)
          ((r.array.drop n.NamespaceLen).take n.NamespaceLen) ∧
      d.drop (2 * n.NamespaceLen) = n.Hash (NodePrefix :: (l.data ++ r.data)) := by
  obtain ⟨_, hl, hr, hd⟩ := hashNode_some_inv n l r d h
  obtain ⟨e1, e3⟩ := range_lengths l n.NamespaceLen hl
  obtain ⟨e2, e4⟩ := range_lengths r n.NamespaceLen hr
  have hf := fields_of_append _ _ (n.Hash (NodePrefix :: (l.data ++ r.data))) n.NamespaceLen
    (min_length _ _ _ e1 e2) (max_length _ _ _ e3 e4)
  rw [← hd, min_eq, max_eq] at hf
  exact hf

/-- The length of a digest returned by `HashNode`. -/
theorem hashNode_length (n : DefaultHasher) (l r : Slice) (d : List Byte)
    (h : n.HashNode l r = some d) :
    d.length = 2 * n.NamespaceLen + (n.Hash (NodePrefix :: (l.data ++ r.data))).length := by
  obtain ⟨_, hl, hr, hd⟩ := hashNode_some_inv n l r d h
  obtain ⟨e1, e3⟩ := range_lengths l n.NamespaceLen hl
  obtain ⟨e2, e4⟩ := range_lengths r n.NamespaceLen hr
  rw [hd]
  simp only [List.length_append, min_length _ _ _ e1 e2, max_length _ _ _ e3 e4]
  omega

/-- For children of at least `2 * N` bytes the spare capacity has no influence on
`HashNode`. -/
theorem hashNode_spare (n : DefaultHasher) (l r sl sr : List Byte)
    (hl : 2 * n.NamespaceLen ≤ l.length) (hr : 2 * n.NamespaceLen ≤ r.length) :
    n.HashNode ⟨l, sl⟩ ⟨r, sr⟩ = n.HashNode ⟨l, []⟩ ⟨r, []⟩ := by
  have key : ∀ (x s : List Byte), 2 * n.NamespaceLen ≤ x.length →
      (Slice.array ⟨x, s⟩).take n.NamespaceLen = x.take n.NamespaceLen ∧
      ((Slice.array ⟨x, s⟩).drop n.NamespaceLen).take n.NamespaceLen =
        (x.drop n.NamespaceLen).take n.NamespaceLen := by
    intro x s hx
    constructor
    · show (x ++ s).take n.NamespaceLen = _
      exact List.take_append_of_le_length (by omega)
    · show ((x ++ s).drop n.NamespaceLen).take n.NamespaceLen = _
      rw [List.drop_append_of_le_length (by omega)]
      exact List.take_append_of_le_length (by rw [List.length_drop]; omega)
  by_cases hN : n.NamespaceLen ≤ 127
  · rw [hashNode_of_le n ⟨l, sl⟩ ⟨r, sr⟩ hN (by simp [Slice.cap]; omega)
        (by simp [Slice.cap]; omega),
      hashNode_of_le n ⟨l, []⟩ ⟨r, []⟩ hN (by simp [Slice.cap]; omega)
        (by simp [Slice.cap]; omega),
      (key l sl hl).1, (key l sl hl).2, (key r sr hr).1, (key r sr hr).2,
      (key l [] hl).1, (key l [] hl).2, (key r [] hr).1, (key r [] hr).2]
  · have hnone : ∀ a b : Slice, n.HashNode a b = none := by
      intro a b
      cases hc : n.HashNode a b with
      | none => rfl
      | some d => exact absurd (hashNode_some_inv n a b d hc).1 hN
    rw [hnone, hnone]

theorem array_exact (x : List Byte) : (Slice.mk x []).array = x :=
  List.append_nil x

theorem cap_exact (x : List Byte) : (Slice.mk x []).cap = x.length :=
  Nat.add_zero x.length

/-! ## Leaf hashing -/

/-- C1: for every namespace length `N`, base digest `H` and leaf of length at least `N`
(whatever its capacity), `HashLeaf(leaf)` returns `leaf[0:N] || leaf[0:N] || H(0x00 ||
leaf[N:])`; the first `N` bytes and the next `N` bytes of the result are both the namespace
ID of the leaf, and the rest is the base digest of the leaf tag followed by the data part
only. -/
theorem C1_hashLeaf_layout (n : DefaultHasher) (leaf : Slice)
    (h : n.NamespaceLen ≤ leaf.len) :
    ∃ d, n.HashLeaf leaf = some d ∧
      d = leaf.data.take n.NamespaceLen ++ leaf.data.take n.NamespaceLen ++
        n.Hash ((0 : Byte) :: leaf.data.drop n.NamespaceLen) ∧
      d.take n.NamespaceLen = leaf.data.take n.NamespaceLen ∧
      (d.drop n.NamespaceLen).take n.NamespaceLen = leaf.data.take n.NamespaceLen ∧
      d.drop (2 * n.NamespaceLen) = n.Hash ((0 : Byte) :: leaf.data.drop n.NamespaceLen) := by
  have h0 : n.NamespaceLen ≤ leaf.data.length := h
  have hk : (leaf.data.take n.NamespaceLen).length = n.NamespaceLen := by
    rw [List.length_take]; omega
  exact ⟨_, hashLeaf_of_le n leaf h, rfl,
    fields_of_append _ _ (n.Hash (LeafPrefix :: leaf.data.drop n.NamespaceLen))
      n.NamespaceLen hk hk⟩

/-- The example of C1: with `N = 1` and the toy digest, the leaf `[0x02, 0x41, 0x42]`
yields `[0x02, 0x02, 0x83]`. -/
theorem C1_hashLeaf_layout_witness :
    (New 1 sumDigest).NamespaceLen ≤ (Slice.mk [0x02, 0x41, 0x42] []).len ∧
      (New 1 sumDigest).HashLeaf ⟨[0x02, 0x41, 0x42], []⟩ = some [0x02, 0x02, 0x83] := by
  refine ⟨by decide, ?_⟩
  obtain ⟨d, hd, heq, _⟩ :=
    C1_hashLeaf_layout (New 1 sumDigest) ⟨[0x02, 0x41, 0x42], []⟩ (by decide)
  rw [hd, heq]
  decide

/-! ## Node hashing -/

/-- C2, at the failing input: with `NamespaceLen = 128` and two children of `256` zero
bytes, each as long as the range prefix `2 * 128` (and of any capacity), `HashNode`
returns no digest, because the prefix length `2 * NamespaceLen` wraps around to `0` in
`uint8` arithmetic. -/
theorem C2_hashNode_overflow (H : List Byte → List Byte) (sl sr : List Byte) :
    2 * (New 128 H).NamespaceLen ≤ (Slice.mk (List.replicate 256 0) sl).len ∧
      2 * (New 128 H).NamespaceLen ≤ (Slice.mk (List.replicate 256 0) sr).len ∧
      (New 128 H).HashNode ⟨List.replicate 256 0, sl⟩ ⟨List.replicate 256 0, sr⟩ = none := by
  have hlen : ∀ s : List Byte,
      2 * (New 128 H).NamespaceLen ≤ (Slice.mk (List.replicate 256 0) s).len := by
    intro s
    show 2 * 128 ≤ (List.replicate 256 (0 : Byte)).length
    rw [List.length_replicate]
  refine ⟨hlen sl, hlen sr, ?_⟩
  cases hc : (New 128 H).HashNode ⟨List.replicate 256 0, sl⟩ ⟨List.replicate 256 0, sr⟩ with
  | none => rfl
  | some d =>
    have h127 : (128 : Nat) ≤ 127 := (hashNode_some_inv _ _ _ d hc).1
    omega

/-- C3: whenever `HashNode(A, B)` returns a digest, its `minNamespace` (bytes `[0, N)`) is
below `A.min` and `B.min` in the lexicographic order and equal to one of them, and its
`maxNamespace` (bytes `[N, 2N)`) is above `A.max` and `B.max` and equal to one of them;
`A.min` and `A.max` are the bytes `[0, N)` and `[N, 2N)` of the child `A`. -/
theorem C3_hashNode_range (n : DefaultHasher) (l r : Slice) (d : List Byte)
    (h : n.HashNode l r = some d) :
    (d.take n.NamespaceLen ≤ l.array.take n.NamespaceLen ∧
      d.take n.NamespaceLen ≤ r.array.take n.NamespaceLen ∧
      (d.take n.NamespaceLen = l.array.take n.NamespaceLen ∨
        d.take n.NamespaceLen = r.array.take n.NamespaceLen)) ∧
    ((l.array.drop n.NamespaceLen).take n.NamespaceLen ≤
        (d.drop n.NamespaceLen).take n.NamespaceLen ∧
      (r.array.drop n.NamespaceLen).take n.NamespaceLen ≤
        (d.drop n.NamespaceLen).take n.NamespaceLen ∧
      ((d.drop n.NamespaceLen).take n.NamespaceLen =
          (l.array.drop n.NamespaceLen).take n.NamespaceLen ∨
        (d.drop n.NamespaceLen).take n.NamespaceLen =
          (r.array.drop n.NamespaceLen).take n.NamespaceLen)) := by
  obtain ⟨hmin, hmax, _⟩ := hashNode_fields n l r d h
  rw [hmin, hmax]
  exact ⟨⟨min_le_left _ _, min_le_right _ _, min_choice _ _⟩,
    ⟨le_max_left _ _, le_max_right _ _, max_choice _ _⟩⟩

/-- An instance of C3: children with ranges `[0x01, 0x01]` and `[0x03, 0x03]`. -/
theorem C3_hashNode_range_witness :
    (New 1 sumDigest).HashNode ⟨[1, 1, 7], []⟩ ⟨[3, 3, 9], []⟩ = some [1, 3, 0x19] ∧
      ([(1 : Byte), 3, 0x19].take 1 ≤ [(1 : Byte), 1, 7].take 1 ∧
        [(3 : Byte), 3, 9].take 1 ≤ ([(1 : Byte), 3, 0x19].drop 1).take 1) := by
  have h : (New 1 sumDigest).HashNode ⟨[1, 1, 7], []⟩ ⟨[3, 3, 9], []⟩ = some [1, 3, 0x19] := by
    decide
  have hc := C3_hashNode_range (New 1 sumDigest) ⟨[1, 1, 7], []⟩ ⟨[3, 3, 9], []⟩
    [1, 3, 0x19] h
  exact ⟨h, hc.1.1, hc.2.2.1⟩

/-! ## Ranges of whole trees -/

/-- The root of a tree of well-formed leaves exists, is at least `2 * N` bytes long, and
its range fields are the least and the greatest namespace ID of the leaves. -/
theorem root_range (n : DefaultHasher) (hN : n.NamespaceLen ≤ 127) (t : Tree)
    (hleaves : ∀ x ∈ t.leaves, n.NamespaceLen ≤ x.length) :
    ∃ d, t.root n = some d ∧ 2 * n.NamespaceLen ≤ d.length ∧
      (∀ x ∈ t.leaves, d.take n.NamespaceLen ≤ x.take n.NamespaceLen) ∧
      (∃ x ∈ t.leaves, d.take n.NamespaceLen = x.take n.NamespaceLen) ∧
      (∀ x ∈ t.leaves, x.take n.NamespaceLen ≤ (d.drop n.NamespaceLen).take n.NamespaceLen) ∧
      (∃ x ∈ t.leaves, (d.drop n.NamespaceLen).take n.NamespaceLen = x.take n.NamespaceLen) := by
  induction t with
  | leaf raw =>
    have hraw : n.NamespaceLen ≤ raw.length := hleaves raw (by simp [Tree.leaves])
    have hk : (raw.take n.NamespaceLen).length = n.NamespaceLen := by
      rw [List.length_take]; omega
    obtain ⟨f1, f2, _⟩ := fields_of_append _ _
      (n.Hash (LeafPrefix :: raw.drop n.NamespaceLen)) n.NamespaceLen hk hk
    refine ⟨_, hashLeaf_of_le n ⟨raw, []⟩ hraw, ?_, ?_, ?_, ?_, ?_⟩
    · simp only [List.length_append, hk]; omega
    · intro x hx
      rw [List.mem_singleton.mp hx]
      exact le_of_eq f1
    · exact ⟨raw, by simp [Tree.leaves], f1⟩
    · intro x hx
      rw [List.mem_singleton.mp hx]
      exact le_of_eq f2.symm
    · exact ⟨raw, by simp [Tree.leaves], f2⟩
  | node a b iha ihb =>
    have hla : ∀ x ∈ a.leaves, n.NamespaceLen ≤ x.length := fun x hx =>
      hleaves x (by simp [Tree.leaves, hx])
    have hlb : ∀ x ∈ b.leaves, n.NamespaceLen ≤ x.length := fun x hx =>
      hleaves x (by simp [Tree.leaves, hx])
    obtain ⟨da, hda, lena, a1, ⟨xa, hxa, a2⟩, a3, ⟨ya, hya, a4⟩⟩ := iha hla
    obtain ⟨db, hdb, lenb, b1, ⟨xb, hxb, b2⟩, b3, ⟨yb, hyb, b4⟩⟩ := ihb hlb
    obtain ⟨d, hnode⟩ : ∃ d, n.HashNode ⟨da, []⟩ ⟨db, []⟩ = some d :=
      ⟨_, hashNode_of_le n ⟨da, []⟩ ⟨db, []⟩ hN
        (by rw [cap_exact]; exact lena) (by rw [cap_exact]; exact lenb)⟩
    obtain ⟨fmin, fmax, _⟩ := hashNode_fields n ⟨da, []⟩ ⟨db, []⟩ d hnode
    have hlenRoot := hashNode_length n ⟨da, []⟩ ⟨db, []⟩ d hnode
    rw [array_exact, array_exact] at fmin fmax
    have hroot : (Tree.node a b).root n = n.HashNode ⟨da, []⟩ ⟨db, []⟩ := by
      simp [Tree.root, hda, hdb]
    have hmem : ∀ x, x ∈ (Tree.node a b).leaves ↔ x ∈ a.leaves ∨ x ∈ b.leaves := fun x => by
      simp [Tree.leaves]
    refine ⟨d, hroot.trans hnode, ?_, ?_, ?_, ?_, ?_⟩
    · omega
    · intro x hx
      rw [fmin]
      rcases (hmem x).mp hx with h | h
      · exact le_trans (min_le_left _ _) (a1 x h)
      · exact le_trans (min_le_right _ _) (b1 x h)
    · rw [fmin]
      rcases min_choice (da.take n.NamespaceLen) (db.take n.NamespaceLen) with h | h
      · exact ⟨xa, (hmem xa).mpr (Or.inl hxa), h.trans a2⟩
      · exact ⟨xb, (hmem xb).mpr (Or.inr hxb), h.trans b2⟩
    · intro x hx
      rw [fmax]
      rcases (hmem x).mp hx with h | h
      · exact le_trans (a3 x h) (le_max_left _ _)
      · exact le_trans (b3 x h) (le_max_right _ _)
    · rw [fmax]
      rcases max_choice ((da.drop n.NamespaceLen).take n.NamespaceLen)
          ((db.drop n.NamespaceLen).take n.NamespaceLen) with h | h
      · exact ⟨ya, (hmem ya).mpr (Or.inl hya), h.trans a4⟩
      · exact ⟨yb, (hmem yb).mpr (Or.inr hyb), h.trans b4⟩

/-- C4: for `N ≤ 127` and every non-empty binary tree whose leaves are at least `N` bytes
long, the bottom-up evaluation with `HashLeaf` and `HashNode` returns a root digest whose
`minNamespace` is the lexicographically smallest namespace ID among the leaves and whose
`maxNamespace` is the largest; any other tree over the same set of leaves, whatever its
shape and leaf order, has a root with the same range. -/
theorem C4_root_range (n : DefaultHasher) (t : Tree) (hN : n.NamespaceLen ≤ 127)
    (hleaves : ∀ x ∈ t.leaves, n.NamespaceLen ≤ x.length) :
    ∃ d, t.root n = some d ∧
      (∀ x ∈ t.leaves, d.take n.NamespaceLen ≤ x.take n.NamespaceLen) ∧
      (∃ x ∈ t.leaves, d.take n.NamespaceLen = x.take n.NamespaceLen) ∧
      (∀ x ∈ t.leaves, x.take n.NamespaceLen ≤ (d.drop n.NamespaceLen).take n.NamespaceLen) ∧
      (∃ x ∈ t.leaves, (d.drop n.NamespaceLen).take n.NamespaceLen = x.take n.NamespaceLen) ∧
      ∀ t2 : Tree, (∀ x, x ∈ t2.leaves ↔ x ∈ t.leaves) →
        ∃ d2, t2.root n = some d2 ∧ d2.take n.NamespaceLen = d.take n.NamespaceLen ∧
          (d2.drop n.NamespaceLen).take n.NamespaceLen =
            (d.drop n.NamespaceLen).take n.NamespaceLen := by
  obtain ⟨d, hd, _, p1, ⟨x1, hx1, p2⟩, p3, ⟨y1, hy1, p4⟩⟩ := root_range n hN t hleaves
  refine ⟨d, hd, p1, ⟨x1, hx1, p2⟩, p3, ⟨y1, hy1, p4⟩, ?_⟩
  intro t2 hsame
  have hleaves2 : ∀ x ∈ t2.leaves, n.NamespaceLen ≤ x.length := fun x hx =>
    hleaves x ((hsame x).mp hx)
  obtain ⟨d2, hd2, _, q1, ⟨x2, hx2, q2⟩, q3, ⟨y2, hy2, q4⟩⟩ := root_range n hN t2 hleaves2
  refine ⟨d2, hd2, le_antisymm ?_ ?_, le_antisymm ?_ ?_⟩
  · rw [p2]; exact q1 x1 ((hsame x1).mpr hx1)
  · rw [q2]; exact p1 x2 ((hsame x2).mp hx2)
  · rw [q4]; exact p3 y2 ((hsame y2).mp hy2)
  · rw [p4]; exact q3 y1 ((hsame y1).mpr hy1)

/-- The example of C4: leaves with namespace IDs `0x01` and `0x03` under `N = 1` combine
to a root with `minNamespace = 0x01` and `maxNamespace = 0x03`. -/
theorem C4_root_range_witness :
    (New 1 sumDigest).NamespaceLen ≤ 127 ∧
      (∀ x ∈ (Tree.node (.leaf [0x01, 0x41]) (.leaf [0x03, 0x42])).leaves,
        (New 1 sumDigest).NamespaceLen ≤ x.length) ∧
      ∃ d, (Tree.node (.leaf [0x01, 0x41]) (.leaf [0x03, 0x42])).root (New 1 sumDigest) = some d ∧
        d.take 1 = [0x01] ∧ (d.drop 1).take 1 = [0x03] := by
  have hN : (New 1 sumDigest).NamespaceLen ≤ 127 := by decide
  have hl : ∀ x ∈ (Tree.node (.leaf [0x01, 0x41]) (.leaf [0x03, 0x42])).leaves,
      (New 1 sumDigest).NamespaceLen ≤ x.length := by decide
  obtain ⟨d, hd, _⟩ := C4_root_range (New 1 sumDigest)
    (Tree.node (.leaf [0x01, 0x41]) (.leaf [0x03, 0x42])) hN hl
  have hval : (Tree.node (.leaf [0x01, 0x41]) (.leaf [0x03, 0x42])).root (New 1 sumDigest) =
      some [0x01, 0x03, 0x8c] := by decide
  refine ⟨hN, hl, d, hd, ?_⟩
  rw [hval] at hd
  rw [← Option.some.inj hd]
  exact ⟨rfl, rfl⟩

/-! ## The invariant `minNamespace ≤ maxNamespace` -/

theorem bytesRepeat_zero (k : Nat) : bytesRepeat [0] k = List.replicate k (0 : Byte) := by
  induction k with
  | zero => rfl
  | succ k ih => simp [bytesRepeat, ih, List.replicate_succ]

/-- Whenever `HashLeaf` returns, the leaf is in range and the result is given by the closed
form. -/
theorem hashLeaf_some_inv (n : DefaultHasher) (leaf : Slice) (d : List Byte)
    (h : n.HashLeaf leaf = some d) :
    n.NamespaceLen ≤ leaf.len ∧
      d = leaf.data.take n.NamespaceLen ++ leaf.data.take n.NamespaceLen ++
        n.Hash (LeafPrefix :: leaf.data.drop n.NamespaceLen) := by
  by_cases hlen : n.NamespaceLen ≤ leaf.len
  · rw [hashLeaf_of_le n leaf hlen] at h
    exact ⟨hlen, (Option.some.inj h).symm⟩
  · rw [hashLeaf_of_lt n leaf (Nat.not_le.mp hlen)] at h
    exact absurd h (by simp)

/-- The fields of the digest returned by `HashLeaf`. -/
theorem hashLeaf_fields (n : DefaultHasher) (leaf : Slice) (d : List Byte)
    (h : n.HashLeaf leaf = some d) :
    d.take n.NamespaceLen = leaf.data.take n.NamespaceLen ∧
      (d.drop n.NamespaceLen).take n.NamespaceLen = leaf.data.take n.NamespaceLen ∧
      d.drop (2 * n.NamespaceLen) = n.Hash (LeafPrefix :: leaf.data.drop n.NamespaceLen) := by
  obtain ⟨hlen, hd⟩ := hashLeaf_some_inv n leaf d h
  have h0 : n.NamespaceLen ≤ leaf.data.length := hlen
  have hk : (leaf.data.take n.NamespaceLen).length = n.NamespaceLen := by
    rw [List.length_take]; omega
  rw [hd]
  exact fields_of_append _ _ _ n.NamespaceLen hk hk

/-- The length of a digest returned by `HashLeaf`. -/
theorem hashLeaf_length (n : DefaultHasher) (leaf : Slice) (d : List Byte)
    (h : n.HashLeaf leaf = some d) :
    d.length =
      2 * n.NamespaceLen + (n.Hash (LeafPrefix :: leaf.data.drop n.NamespaceLen)).length := by
  obtain ⟨hlen, hd⟩ := hashLeaf_some_inv n leaf d h
  have h0 : n.NamespaceLen ≤ leaf.data.length := hlen
  have hk : (leaf.data.take n.NamespaceLen).length = n.NamespaceLen := by
    rw [List.length_take]; omega
  rw [hd]
  simp only [List.length_append, hk]
  omega

/-- C5: the invariant `minNamespace ≤ maxNamespace` (bytes `[0, N)` against bytes
`[N, 2N)`, lexicographic order) holds for `EmptyRoot()`, holds for the digest that
`HashLeaf` returns on every leaf of length at least `N`, and is preserved by `HashNode`:
when both children satisfy it and `HashNode` returns a digest, that digest satisfies it. -/
theorem C5_min_le_max (n : DefaultHasher) :
    (n.EmptyRoot.min ≤ n.EmptyRoot.max ∧
      n.EmptyRoot.Bytes.take n.NamespaceLen ≤
        (n.EmptyRoot.Bytes.drop n.NamespaceLen).take n.NamespaceLen) ∧
    (∀ leaf : Slice, n.NamespaceLen ≤ leaf.len →
      ∃ d, n.HashLeaf leaf = some d ∧
        d.take n.NamespaceLen ≤ (d.drop n.NamespaceLen).take n.NamespaceLen) ∧
    (∀ (l r : Slice) (d : List Byte),
      l.array.take n.NamespaceLen ≤ (l.array.drop n.NamespaceLen).take n.NamespaceLen →
      r.array.take n.NamespaceLen ≤ (r.array.drop n.NamespaceLen).take n.NamespaceLen →
      n.HashNode l r = some d →
      d.take n.NamespaceLen ≤ (d.drop n.NamespaceLen).take n.NamespaceLen) := by
  refine ⟨⟨le_refl _, ?_⟩, ?_, ?_⟩
  · have hk : (bytesRepeat [0] n.NamespaceLen).length = n.NamespaceLen := by
      rw [bytesRepeat_zero, List.length_replicate]
    obtain ⟨f1, f2, _⟩ := fields_of_append (bytesRepeat [0] n.NamespaceLen)
      (bytesRepeat [0] n.NamespaceLen) (n.New.Sum []) n.NamespaceLen hk hk
    show ((bytesRepeat [0] n.NamespaceLen ++ bytesRepeat [0] n.NamespaceLen ++
      n.New.Sum []).take n.NamespaceLen) ≤ _
    rw [f1]
    exact le_of_eq f2.symm
  · intro leaf hlen
    refine ⟨_, hashLeaf_of_le n leaf hlen, ?_⟩
    obtain ⟨f1, f2, _⟩ := hashLeaf_fields n leaf _ (hashLeaf_of_le n leaf hlen)
    rw [f1, f2]
  · intro l r d hl hr hd
    obtain ⟨fmin, fmax, _⟩ := hashNode_fields n l r d hd
    rw [fmin, fmax]
    exact le_trans (min_le_left _ _) (le_trans hl (le_max_left _ _))

/-- An instance of C5: the node over the children `[1, 1, 7]` and `[3, 3, 9]`. -/
theorem C5_min_le_max_witness :
    (New 1 sumDigest).HashNode ⟨[1, 1, 7], []⟩ ⟨[3, 3, 9], []⟩ = some [1, 3, 0x19] ∧
      [(1 : Byte), 3, 0x19].take 1 ≤ ([(1 : Byte), 3, 0x19].drop 1).take 1 := by
  have h : (New 1 sumDigest).HashNode ⟨[1, 1, 7], []⟩ ⟨[3, 3, 9], []⟩ = some [1, 3, 0x19] := by
    decide
  exact ⟨h, (C5_min_le_max (New 1 sumDigest)).2.2 ⟨[1, 1, 7], []⟩ ⟨[3, 3, 9], []⟩
    [1, 3, 0x19] (le_refl [(1 : Byte)]) (le_refl [(3 : Byte)]) h⟩

/-! ## Domain separation -/

/-- C6: for every leaf accepted by `HashLeaf` and every pair of children accepted by
`HashNode`, the bytes written to the base digest by `HashLeaf` are `0x00 || data`, those
written by `HashNode` are `0x01 || left || right`, and the two strings differ; hence equal
results would be a collision of the base digest on these two strings, and for every
collision-free (injective) base digest `HashLeaf(leaf)` is never equal to `HashNode(l, r)`. -/
theorem C6_domain_separation (n : DefaultHasher) (leaf l r : Slice)
    (hL : (n.HashLeaf leaf).isSome) (hNd : (n.HashNode l r).isSome) :
    (∃ hl resl hn resn, n.HashLeafState leaf = some (hl, resl) ∧
      n.HashNodeState l r = some (hn, resn) ∧
      hl.written = (0 : Byte) :: leaf.data.drop n.NamespaceLen ∧
      hn.written = (1 : Byte) :: (l.data ++ r.data) ∧ hl.written ≠ hn.written) ∧
    (n.HashLeaf leaf = n.HashNode l r →
      n.Hash ((0 : Byte) :: leaf.data.drop n.NamespaceLen) =
        n.Hash ((1 : Byte) :: (l.data ++ r.data))) ∧
    (Function.Injective n.Hash → n.HashLeaf leaf ≠ n.HashNode l r) := by
  obtain ⟨dl, hdl⟩ := Option.isSome_iff_exists.mp hL
  obtain ⟨dn, hdn⟩ := Option.isSome_iff_exists.mp hNd
  obtain ⟨hlen, _⟩ := hashLeaf_some_inv n leaf dl hdl
  obtain ⟨hN, hl, hr, _⟩ := hashNode_some_inv n l r dn hdn
  have hcol : n.HashLeaf leaf = n.HashNode l r →
      n.Hash ((0 : Byte) :: leaf.data.drop n.NamespaceLen) =
        n.Hash ((1 : Byte) :: (l.data ++ r.data)) := by
    intro heq
    rw [hdl] at heq
    have h3 := (hashLeaf_fields n leaf dl hdl).2.2
    have h4 := (hashNode_fields n l r dl (heq ▸ rfl)).2.2
    exact h3.symm.trans h4
  refine ⟨⟨_, _, _, _, hashLeafState_of_le n leaf hlen, hashNodeState_of_le n l r hN hl hr,
    rfl, rfl, ?_⟩, hcol, ?_⟩
  · intro hc
    have h01 : (0 : Byte) = 1 := (List.cons.inj hc).1
    exact absurd h01 (by decide)
  · intro hinj heq
    have h01 : (0 : Byte) = 1 := (List.cons.inj (hinj (hcol heq))).1
    exact absurd h01 (by decide)

/-- An instance of C6 with the identity as (collision-free) base digest. -/
theorem C6_domain_separation_witness :
    ((New 1 id).HashLeaf ⟨[0x02, 0x41], []⟩).isSome ∧
      ((New 1 id).HashNode ⟨[1, 1, 7], []⟩ ⟨[3, 3, 9], []⟩).isSome ∧
      Function.Injective (New 1 id).Hash ∧
      (New 1 id).HashLeaf ⟨[0x02, 0x41], []⟩ ≠
        (New 1 id).HashNode ⟨[1, 1, 7], []⟩ ⟨[3, 3, 9], []⟩ := by
  have h1 : ((New 1 id).HashLeaf ⟨[0x02, 0x41], []⟩).isSome := by decide
  have h2 : ((New 1 id).HashNode ⟨[1, 1, 7], []⟩ ⟨[3, 3, 9], []⟩).isSome := by decide
  have h3 : Function.Injective (New 1 id).Hash := Function.injective_id
  exact ⟨h1, h2, h3, (C6_domain_separation (New 1 id) ⟨[0x02, 0x41], []⟩ ⟨[1, 1, 7], []⟩
    ⟨[3, 3, 9], []⟩ h1 h2).2.2 h3⟩

/-! ## Malformed input -/

/-- C7: `HashLeaf` fails exactly when the leaf is shorter than `N` bytes, whatever its
capacity; on every leaf of at least `N` bytes it returns a digest, and on a leaf of exactly
`N` bytes (empty data part) the digest is `leaf || leaf || H(0x00)`. -/
theorem C7_hashLeaf_fails_iff (n : DefaultHasher) (leaf : Slice) :
    (n.HashLeaf leaf = none ↔ leaf.len < n.NamespaceLen) ∧
    ((n.HashLeaf leaf).isSome ↔ n.NamespaceLen ≤ leaf.len) ∧
    (leaf.len = n.NamespaceLen →
      n.HashLeaf leaf = some (leaf.data ++ leaf.data ++ n.Hash [(0 : Byte)])) := by
  refine ⟨⟨?_, hashLeaf_of_lt n leaf⟩, ⟨?_, ?_⟩, ?_⟩
  · intro h
    by_contra hc
    rw [hashLeaf_of_le n leaf (Nat.not_lt.mp hc)] at h
    exact absurd h (by simp)
  · intro h
    obtain ⟨d, hd⟩ := Option.isSome_iff_exists.mp h
    exact (hashLeaf_some_inv n leaf d hd).1
  · intro h
    rw [hashLeaf_of_le n leaf h]
    rfl
  · intro h
    have h0 : leaf.data.length = n.NamespaceLen := h
    rw [hashLeaf_of_le n leaf (le_of_eq h.symm), ← h0, List.take_length, List.drop_length]
    rfl

/-- An instance of C7: a leaf that consists of its namespace ID only. -/
theorem C7_hashLeaf_fails_iff_witness :
    (Slice.mk [5] []).len = (New 1 sumDigest).NamespaceLen ∧
      (New 1 sumDigest).HashLeaf ⟨[5], []⟩ = some [5, 5, 0] := by
  refine ⟨rfl, ?_⟩
  rw [(C7_hashLeaf_fails_iff (New 1 sumDigest) ⟨[5], []⟩).2.2 rfl]
  decide

/-- C8, as stated, fails: with `N = 1` and the one-byte toy digest (`hashLen = 1`) the
left child `[1, 1]` is shorter than `2 * N + hashLen = 3` bytes, yet `HashNode` returns the
digest `[1, 3, 18]`. Even a left child `[1]` of one byte is accepted when its slice has
spare capacity (here the spare bytes `9, 9, 9`): `HashNode` returns `[1, 9, 17]`. -/
theorem C8_undersized_child_accepted :
    (∀ x, ((New 1 sumDigest).Hash x).length = 1) ∧
      (Slice.mk [1, 1] []).len < 2 * (New 1 sumDigest).NamespaceLen + 1 ∧
      (New 1 sumDigest).HashNode ⟨[1, 1], []⟩ ⟨[3, 3, 9], []⟩ = some [1, 3, 18] ∧
      (Slice.mk [1] [9, 9, 9]).len < 2 * (New 1 sumDigest).NamespaceLen ∧
      (New 1 sumDigest).HashNode ⟨[1], [9, 9, 9]⟩ ⟨[3, 3, 9], []⟩ = some [1, 9, 17] ∧
      ¬ (∀ (n : DefaultHasher) (hashLen : Nat) (l r : Slice),
          (∀ x, (n.Hash x).length = hashLen) →
          (l.len < 2 * n.NamespaceLen + hashLen ∨ r.len < 2 * n.NamespaceLen + hashLen) →
          n.HashNode l r = none) := by
  have hlen : ∀ x, ((New 1 sumDigest).Hash x).length = 1 := fun _ => rfl
  have hshort : (Slice.mk [1, 1] []).len < 2 * (New 1 sumDigest).NamespaceLen + 1 := by
    decide
  have hval : (New 1 sumDigest).HashNode ⟨[1, 1], []⟩ ⟨[3, 3, 9], []⟩ = some [1, 3, 18] := by
    decide
  refine ⟨hlen, hshort, hval, by decide, by decide, ?_⟩
  intro hall
  have hnone := hall (New 1 sumDigest) 1 ⟨[1, 1], []⟩ ⟨[3, 3, 9], []⟩ hlen (Or.inl hshort)
  rw [hval] at hnone
  exact absurd hnone (by simp)

/-- C8, amended: `HashNode` rejects children that cannot hold the range prefix: for every
namespace length `N`, every base digest and every pair `l`, `r` in which at least one
child has a capacity of less than `2 * N` bytes, `HashNode(l, r)` fails instead of
returning a digest. -/
theorem C8_hashNode_rejects_short_range (n : DefaultHasher) (l r : Slice)
    (h : l.cap < 2 * n.NamespaceLen ∨ r.cap < 2 * n.NamespaceLen) :
    n.HashNode l r = none := by
  cases hc : n.HashNode l r with
  | none => rfl
  | some d =>
    obtain ⟨_, hl, hr, _⟩ := hashNode_some_inv n l r d hc
    omega

/-- An instance of the amended C8: a left child of one byte and no spare capacity under
`N = 1`. -/
theorem C8_hashNode_rejects_short_range_witness :
    ((Slice.mk [1] []).cap < 2 * (New 1 sumDigest).NamespaceLen ∨
        (Slice.mk [3, 3, 9] []).cap < 2 * (New 1 sumDigest).NamespaceLen) ∧
      (New 1 sumDigest).HashNode ⟨[1], []⟩ ⟨[3, 3, 9], []⟩ = none :=
  ⟨Or.inl (by decide),
    C8_hashNode_rejects_short_range (New 1 sumDigest) ⟨[1], []⟩ ⟨[3, 3, 9], []⟩
      (Or.inl (by decide))⟩

/-! ## The empty root -/

/-- C9: for every namespace length `N` and base digest `H`, `EmptyRoot()` is the namespaced
digest whose `minNamespace` and `maxNamespace` are `N` zero bytes and whose hash is `H` of
the empty byte string; its serialized form is `zero-bytes(N) || zero-bytes(N) || H(empty)`,
and it is determined by the configuration alone. -/
theorem C9_emptyRoot (n : DefaultHasher) :
    n.EmptyRoot.min = List.replicate n.NamespaceLen (0 : Byte) ∧
    n.EmptyRoot.max = List.replicate n.NamespaceLen (0 : Byte) ∧
    n.EmptyRoot.digest = n.Hash [] ∧
    n.EmptyRoot.Bytes =
      List.replicate n.NamespaceLen (0 : Byte) ++ List.replicate n.NamespaceLen (0 : Byte) ++
        n.Hash [] ∧
    (∀ m : DefaultHasher, m.NamespaceLen = n.NamespaceLen → m.Hash = n.Hash →
      m.EmptyRoot = n.EmptyRoot) := by
  have hmin : n.EmptyRoot.min = List.replicate n.NamespaceLen (0 : Byte) :=
    bytesRepeat_zero n.NamespaceLen
  have hmax : n.EmptyRoot.max = List.replicate n.NamespaceLen (0 : Byte) :=
    bytesRepeat_zero n.NamespaceLen
  have hdig : n.EmptyRoot.digest = n.Hash [] := rfl
  refine ⟨hmin, hmax, hdig, ?_, ?_⟩
  · rw [IntervalDigest.Bytes, hmin, hmax, hdig]
  · intro m hlen hhash
    cases m
    cases n
    simp only at hlen hhash
    subst hlen
    subst hhash
    rfl

/-- An instance of C9: the empty root for `N = 2` and the toy digest. -/
theorem C9_emptyRoot_witness :
    (New 2 sumDigest).EmptyRoot.Bytes = [0, 0, 0, 0, 0] ∧
      (DefaultHasher.mk sumDigest 2).EmptyRoot = (New 2 sumDigest).EmptyRoot :=
  ⟨by rw [(C9_emptyRoot (New 2 sumDigest)).2.2.2.1]; decide,
    (C9_emptyRoot (New 2 sumDigest)).2.2.2.2 (DefaultHasher.mk sumDigest 2) rfl rfl⟩

/-! ## Serialized layout and closure -/

/-- C10: for every base digest of fixed output length `hashLen`, every digest returned by
`HashLeaf` and every digest returned by `HashNode` has length exactly `2 * N + hashLen`
(`N` bytes, `N` bytes, then `hashLen` bytes); hence for `N ≤ 127` any two digests produced
by `HashLeaf` or `HashNode` under one configuration are accepted as children by
`HashNode`, whatever the spare capacity of their slices. -/
theorem C10_layout_closure (n : DefaultHasher) (hashLen : Nat)
    (hH : ∀ x, (n.Hash x).length = hashLen) :
    (∀ d, Produced n d →
      d.length = 2 * n.NamespaceLen + hashLen ∧
      (d.take n.NamespaceLen).length = n.NamespaceLen ∧
      ((d.drop n.NamespaceLen).take n.NamespaceLen).length = n.NamespaceLen ∧
      (d.drop (2 * n.NamespaceLen)).length = hashLen) ∧
    (n.NamespaceLen ≤ 127 → ∀ a b, Produced n a → Produced n b →
      ∀ sa sb : List Byte, ∃ d, n.HashNode ⟨a, sa⟩ ⟨b, sb⟩ = some d ∧ Produced n d) := by
  have hlenOf : ∀ d, Produced n d → d.length = 2 * n.NamespaceLen + hashLen := by
    intro d hd
    rcases hd with ⟨leaf, hleaf⟩ | ⟨l, r, hnode⟩
    · rw [hashLeaf_length n leaf d hleaf, hH]
    · rw [hashNode_length n l r d hnode, hH]
  refine ⟨?_, ?_⟩
  · intro d hd
    have hlen := hlenOf d hd
    refine ⟨hlen, ?_, ?_, ?_⟩
    · rw [List.length_take]; omega
    · rw [List.length_take, List.length_drop]; omega
    · rw [List.length_drop]; omega
  · intro hN a b ha hb sa sb
    have hla := hlenOf a ha
    have hlb := hlenOf b hb
    have hca : 2 * n.NamespaceLen ≤ (Slice.mk a sa).cap := by
      show 2 * n.NamespaceLen ≤ a.length + sa.length
      omega
    have hcb : 2 * n.NamespaceLen ≤ (Slice.mk b sb).cap := by
      show 2 * n.NamespaceLen ≤ b.length + sb.length
      omega
    exact ⟨_, hashNode_of_le n _ _ hN hca hcb, Or.inr ⟨_, _, hashNode_of_le n _ _ hN hca hcb⟩⟩

/-- An instance of C10: two leaf digests under `N = 1` and the one-byte toy digest have
three bytes each and are accepted by `HashNode`. -/
theorem C10_layout_closure_witness :
    (∀ x, ((New 1 sumDigest).Hash x).length = 1) ∧
      Produced (New 1 sumDigest) [0x01, 0x01, 0x41] ∧
      [(0x01 : Byte), 0x01, 0x41].length = 2 * (New 1 sumDigest).NamespaceLen + 1 ∧
      ∃ d, (New 1 sumDigest).HashNode ⟨[0x01, 0x01, 0x41], []⟩ ⟨[0x01, 0x01, 0x41], []⟩ =
        some d := by
  have hlen : ∀ x, ((New 1 sumDigest).Hash x).length = 1 := fun _ => rfl
  have hp : Produced (New 1 sumDigest) [0x01, 0x01, 0x41] :=
    Or.inl ⟨⟨[0x01, 0x41], []⟩, by decide⟩
  have hc := C10_layout_closure (New 1 sumDigest) 1 hlen
  obtain ⟨d, hd, _⟩ := hc.2 (by decide) _ _ hp hp [] []
  exact ⟨hlen, hp, (hc.1 _ hp).1, d, hd⟩

/-! ## Configuration -/

/-- C11: configuration mismatch is not detected. The leaves `[0, 5, 0x41]` and
`[0, 7, 0x42]` hashed under namespace length `2` give digests that `HashNode` under
namespace length `1` accepts: it returns `[0, 7, 0x9c]`, whose range bytes `[0]` and `[7]`
are bytes `0` and `1` of the children and not the namespace IDs `[0, 5]` and `[0, 7]`
that the children carry. -/
theorem C11_mismatch_undetected :
    ∃ (N N2 : Nat) (leaf1 leaf2 d1 d2 d : List Byte),
      N2 ≠ N ∧
      (New N2 sumDigest).HashLeaf ⟨leaf1, []⟩ = some d1 ∧
      (New N2 sumDigest).HashLeaf ⟨leaf2, []⟩ = some d2 ∧
      (New N sumDigest).HashNode ⟨d1, []⟩ ⟨d2, []⟩ = some d ∧
      d = [0, 7, 0x9c] ∧
      (d.drop N).take N = (d2.drop N).take N ∧
      (d2.drop N).take N ≠ (d2.drop N2).take N2 ∧
      (New N2 sumDigest).HashNode ⟨d1, []⟩ ⟨d2, []⟩ = some [0, 5, 0, 7, 0x9c] :=
  ⟨1, 2, [0, 5, 0x41], [0, 7, 0x42], [0, 5, 0, 5, 0x41], [0, 7, 0, 7, 0x42], [0, 7, 0x9c],
    by decide, by decide, by decide, by decide, rfl, by decide, by decide, by decide⟩

/-! ## Calls on the store -/

theorem modify_last (hs : List HashState) (s : HashState) (f : HashState → HashState) :
    (hs ++ [s]).modify f hs.length = hs ++ [f s] := by
  induction hs with
  | nil => rfl
  | cons x xs ih => simp [ih]

theorem get_last (hs : List HashState) (s : HashState) :
    (hs ++ [s]).get? hs.length = some s := by
  induction hs with
  | nil => rfl
  | cons x xs ih => simp

theorem world_write_last (n : DefaultHasher) (hs : List HashState) (s : HashState)
    (p : List Byte) :
    (World.mk n (hs ++ [s])).Write hs.length p = World.mk n (hs ++ [s.Write p]) := by
  simp only [World.Write, modify_last]

theorem world_sum_last (n : DefaultHasher) (hs : List HashState) (s : HashState)
    (b : List Byte) :
    (World.mk n (hs ++ [s])).Sum hs.length b = some (s.Sum b) := by
  simp only [World.Sum, get_last, Option.map_some']

/-- The step `HashLeaf` on the store, in terms of the function `HashLeafState`: the
running digest of the call is allocated behind the existing ones, and the store is
otherwise unchanged. -/
theorem world_hashLeaf (w : World) (leaf : Slice) :
    w.HashLeaf leaf =
      match w.hasher.HashLeafState leaf with
      | some p => (World.mk w.hasher (w.heap ++ [p.1]), some (p.1.Sum p.2))
      | none => (World.mk w.hasher (w.heap ++ [w.hasher.New]), none) := by
  cases hto : sliceTo leaf w.hasher.NamespaceLen with
  | none => simp [World.HashLeaf, World.New, DefaultHasher.HashLeafState, hto]
  | some nID =>
    cases hfrom : sliceFrom leaf w.hasher.NamespaceLen with
    | none => simp [World.HashLeaf, World.New, DefaultHasher.HashLeafState, hto, hfrom]
    | some data =>
      simp [World.HashLeaf, World.New, DefaultHasher.HashLeafState, hto, hfrom,
        world_write_last, world_sum_last]

/-- The step `HashNode` on the store, in terms of the function `HashNodeState`. -/
theorem world_hashNode (w : World) (l r : Slice) :
    w.HashNode l r =
      match w.hasher.HashNodeState l r with
      | some p => (World.mk w.hasher (w.heap ++ [p.1]), some (p.1.Sum p.2))
      | none => (World.mk w.hasher (w.heap ++ [w.hasher.New]), none) := by
  cases h1 : sliceTo l w.hasher.NamespaceLen <;>
    cases h2 : slice l w.hasher.NamespaceLen (2 * w.hasher.NamespaceLen % 256) <;>
    cases h3 : sliceTo r w.hasher.NamespaceLen <;>
    cases h4 : slice r w.hasher.NamespaceLen (2 * w.hasher.NamespaceLen % 256) <;>
    simp [World.HashNode, World.New, DefaultHasher.HashNodeState, h1, h2, h3, h4,
      world_write_last, world_sum_last]

/-- The step `EmptyRoot` on the store, in terms of the function `EmptyRoot`. -/
theorem world_emptyRoot (w : World) :
    w.EmptyRoot = (World.mk w.hasher (w.heap ++ [w.hasher.New]), some w.hasher.EmptyRoot) := by
  simp [World.EmptyRoot, World.New, world_sum_last, DefaultHasher.EmptyRoot]

/-- A call leaves the fields of the hasher and the running digests of earlier calls as
they are, allocates one running digest, and returns what the functions of the fields and
the arguments return. -/
theorem call_spec (w : World) (c : Call) :
    (w.call c).1.hasher = w.hasher ∧ (∃ s, (w.call c).1.heap = w.heap ++ [s]) ∧
      (w.call c).2 = w.hasher.ret c := by
  cases c with
  | HashLeaf leaf =>
    simp only [World.call, DefaultHasher.ret, DefaultHasher.HashLeaf, world_hashLeaf]
    cases w.hasher.HashLeafState leaf <;> exact ⟨rfl, ⟨_, rfl⟩, rfl⟩
  | HashNode l r =>
    simp only [World.call, DefaultHasher.ret, DefaultHasher.HashNode, world_hashNode]
    cases w.hasher.HashNodeState l r <;> exact ⟨rfl, ⟨_, rfl⟩, rfl⟩
  | EmptyRoot =>
    show w.EmptyRoot.1.hasher = w.hasher ∧ (∃ s, w.EmptyRoot.1.heap = w.heap ++ [s]) ∧
      Ret.digest w.EmptyRoot.2 = Ret.digest (some w.hasher.EmptyRoot)
    rw [world_emptyRoot]
    exact ⟨rfl, ⟨_, rfl⟩, rfl⟩

/-- A sequence of calls leaves the fields of the hasher and the running digests that
existed before as they are, and every call returns what the functions return. -/
theorem run_spec (w : World) (cs : List Call) :
    (w.run cs).1.hasher = w.hasher ∧
      (∃ newer, (w.run cs).1.heap = w.heap ++ newer ∧ newer.length = cs.length) ∧
      (w.run cs).2 = cs.map w.hasher.ret := by
  induction cs generalizing w with
  | nil => exact ⟨rfl, ⟨[], (List.append_nil _).symm, rfl⟩, rfl⟩
  | cons c cs ih =>
    obtain ⟨h1, ⟨s, h2⟩, h3⟩ := call_spec w c
    obtain ⟨i1, ⟨newer, i2, i3⟩, i4⟩ := ih (w.call c).1
    refine ⟨i1.trans h1, ⟨s :: newer, ?_, ?_⟩, ?_⟩
    · show ((w.call c).1.run cs).1.heap = _
      rw [i2, h2, List.append_assoc]
      rfl
    · simp [i3]
    · show (w.call c).2 :: ((w.call c).1.run cs).2 = _
      rw [i4, h3, h1]
      rfl

/-- The result of the step `HashLeaf` is the function `HashLeaf` of the fields and the
leaf. -/
theorem world_hashLeaf_result (w : World) (leaf : Slice) :
    (w.HashLeaf leaf).2 = w.hasher.HashLeaf leaf := by
  rw [world_hashLeaf, DefaultHasher.HashLeaf]
  cases w.hasher.HashLeafState leaf <;> rfl

/-- C12: determinism and statelessness. On a store with any running digests left by
earlier calls, and after any sequence of `HashLeaf`, `HashNode` and `EmptyRoot` calls,
`HashLeaf(L)` returns the same byte string, which is a function of the configuration
fields and `L` alone; the calls leave the configuration fields and the running digests of
earlier calls unchanged and return what their functions return; the running digest of a
call is newly allocated, computes the configured base digest, and holds only what this
call wrote (nothing, or the leaf tag and the data of `L`). -/
theorem C12_hashLeaf_deterministic (w : World) (cs : List Call) (leaf : Slice) :
    ((w.run cs).1.HashLeaf leaf).2 = (w.HashLeaf leaf).2 ∧
    (w.HashLeaf leaf).2 = w.hasher.HashLeaf leaf ∧
    (w.run cs).1.hasher = w.hasher ∧
    ((w.run cs).1.HashLeaf leaf).1.hasher = w.hasher ∧
    (w.run cs).2 = cs.map w.hasher.ret ∧
    (∃ newer, (w.run cs).1.heap = w.heap ++ newer ∧ newer.length = cs.length) ∧
    (∃ s, (w.HashLeaf leaf).1.heap = w.heap ++ [s] ∧ s.alg = w.hasher.Hash ∧
      (s.written = [] ∨
        s.written = LeafPrefix :: leaf.data.drop w.hasher.NamespaceLen)) ∧
    (∀ w2 : World, w2.hasher = w.hasher → (w2.HashLeaf leaf).2 = (w.HashLeaf leaf).2) := by
  obtain ⟨r1, r2, r3⟩ := run_spec w cs
  refine ⟨?_, world_hashLeaf_result w leaf, r1, ?_, r3, r2, ?_, ?_⟩
  · rw [world_hashLeaf_result, world_hashLeaf_result, r1]
  · rw [world_hashLeaf]
    cases (w.run cs).1.hasher.HashLeafState leaf <;> exact r1
  · rw [world_hashLeaf]
    by_cases hlen : w.hasher.NamespaceLen ≤ leaf.len
    · rw [hashLeafState_of_le w.hasher leaf hlen]
      exact ⟨_, rfl, rfl, Or.inr rfl⟩
    · rw [hashLeafState_of_lt w.hasher leaf (Nat.not_le.mp hlen)]
      exact ⟨_, rfl, rfl, Or.inl rfl⟩
  · intro w2 h2
    rw [world_hashLeaf_result, world_hashLeaf_result, h2]

/-- An instance of C12: on a store that holds a running digest with the bytes `7, 7`
written, and after a failing `HashNode`, an `EmptyRoot` and a `HashLeaf` call, the leaf
`[0x02, 0x41, 0x42]` yields `[0x02, 0x02, 0x83]`, as it does on a store without any
running digest. -/
theorem C12_hashLeaf_deterministic_witness :
    (((World.mk (New 1 sumDigest) [⟨sumDigest, [7, 7]⟩]).run
        [.HashNode ⟨[1], []⟩ ⟨[2], []⟩, .EmptyRoot, .HashLeaf ⟨[9, 9], []⟩]).1.HashLeaf
          ⟨[0x02, 0x41, 0x42], []⟩).2 = some [0x02, 0x02, 0x83] ∧
      (World.mk (New 1 sumDigest) []).hasher =
        (World.mk (New 1 sumDigest) [⟨sumDigest, [7, 7]⟩]).hasher ∧
      ((World.mk (New 1 sumDigest) []).HashLeaf ⟨[0x02, 0x41, 0x42], []⟩).2 =
        ((World.mk (New 1 sumDigest) [⟨sumDigest, [7, 7]⟩]).HashLeaf
          ⟨[0x02, 0x41, 0x42], []⟩).2 := by
  have hc := C12_hashLeaf_deterministic (World.mk (New 1 sumDigest) [⟨sumDigest, [7, 7]⟩])
    [.HashNode ⟨[1], []⟩ ⟨[2], []⟩, .EmptyRoot, .HashLeaf ⟨[9, 9], []⟩]
    ⟨[0x02, 0x41, 0x42], []⟩
  refine ⟨?_, rfl, hc.2.2.2.2.2.2.2 (World.mk (New 1 sumDigest) []) rfl⟩
  rw [hc.1, hc.2.1]
  decide

/-- C13: for every namespace length `nidLen` and base digest `h`, the hasher built by
`New(nidLen, h)` reports `NamespaceSize() = nidLen` and uses `h` as its base digest: its
running digests compute `h`, and so do `EmptyRoot`, `HashLeaf` and `HashNode`. -/
theorem C13_new (nidLen : Nat) (h : List Byte → List Byte) :
    (New nidLen h).NamespaceSize = nidLen ∧
    (New nidLen h).NamespaceLen = nidLen ∧
    (New nidLen h).Hash = h ∧
    (New nidLen h).New = { alg := h, written := [] } ∧
    (∀ b, (New nidLen h).New.Sum b = b ++ h []) ∧
    (New nidLen h).EmptyRoot.digest = h [] ∧
    (∀ (leaf : Slice) (d : List Byte), (New nidLen h).HashLeaf leaf = some d →
      d.drop (2 * nidLen) = h (LeafPrefix :: leaf.data.drop nidLen)) ∧
    (∀ (l r : Slice) (d : List Byte), (New nidLen h).HashNode l r = some d →
      d.drop (2 * nidLen) = h (NodePrefix :: (l.data ++ r.data))) := by
  refine ⟨rfl, rfl, rfl, rfl, fun _ => rfl, rfl, ?_, ?_⟩
  · intro leaf d hd
    exact (hashLeaf_fields (New nidLen h) leaf d hd).2.2
  · intro l r d hd
    exact (hashNode_fields (New nidLen h) l r d hd).2.2

/-- An instance of C13: `New(1, sumDigest)`. -/
theorem C13_new_witness :
    (New 1 sumDigest).NamespaceSize = 1 ∧
      (New 1 sumDigest).HashLeaf ⟨[0x02, 0x41, 0x42], []⟩ = some [0x02, 0x02, 0x83] ∧
      [(0x02 : Byte), 0x02, 0x83].drop (2 * 1) =
        sumDigest (LeafPrefix :: [0x02, 0x41, 0x42].drop 1) := by
  have hv : (New 1 sumDigest).HashLeaf ⟨[0x02, 0x41, 0x42], []⟩ = some [0x02, 0x02, 0x83] := by
    decide
  exact ⟨(C13_new 1 sumDigest).1, hv,
    (C13_new 1 sumDigest).2.2.2.2.2.2.1 ⟨[0x02, 0x41, 0x42], []⟩ [0x02, 0x02, 0x83] hv⟩

/-! ## The wrapped length of the range -/

/-- C14: `HashNode` takes the length of the range as `2 * NamespaceLen` modulo `256`: it
returns a digest exactly when `N ≤ (2 * N) mod 256` and both children have a capacity of
at least `(2 * N) mod 256` bytes, which is the case exactly when `N ≤ 127` and both
children have a capacity of at least `2 * N` bytes; for children whose capacity is their
length, exactly when `N ≤ 127` and both have at least `2 * N` bytes. For every `N` from
`128` to `255` the wrapped length is smaller than `N` and `HashNode` fails on every pair
of children. -/
theorem C14_hashNode_returns_iff (n : DefaultHasher) (l r : Slice) :
    ((n.HashNode l r).isSome ↔
      n.NamespaceLen ≤ 2 * n.NamespaceLen % 256 ∧ 2 * n.NamespaceLen % 256 ≤ l.cap ∧
        2 * n.NamespaceLen % 256 ≤ r.cap) ∧
    ((n.HashNode l r).isSome ↔
      n.NamespaceLen ≤ 127 ∧ 2 * n.NamespaceLen ≤ l.cap ∧ 2 * n.NamespaceLen ≤ r.cap) ∧
    (l.cap = l.len → r.cap = r.len →
      ((n.HashNode l r).isSome ↔
        n.NamespaceLen ≤ 127 ∧ 2 * n.NamespaceLen ≤ l.len ∧ 2 * n.NamespaceLen ≤ r.len)) ∧
    (128 ≤ n.NamespaceLen → n.NamespaceLen ≤ 255 →
      2 * n.NamespaceLen % 256 < n.NamespaceLen ∧
        ∀ l2 r2 : Slice, n.HashNode l2 r2 = none) := by
  have hiff := hashNode_isSome_iff n l r
  refine ⟨?_, hiff, ?_, ?_⟩
  · rw [hiff]
    constructor
    · rintro ⟨hN, hl, hr⟩
      have hmod : 2 * n.NamespaceLen % 256 = 2 * n.NamespaceLen :=
        Nat.mod_eq_of_lt (by omega)
      rw [hmod]
      exact ⟨by omega, hl, hr⟩
    · rintro ⟨hN, hl, hr⟩
      have hN2 : n.NamespaceLen ≤ 127 := by omega
      have hmod : 2 * n.NamespaceLen % 256 = 2 * n.NamespaceLen :=
        Nat.mod_eq_of_lt (by omega)
      rw [hmod] at hl hr
      exact ⟨hN2, hl, hr⟩
  · intro hcl hcr
    rw [hiff, hcl, hcr]
  · intro h128 h255
    refine ⟨by omega, ?_⟩
    intro l2 r2
    cases hc : n.HashNode l2 r2 with
    | none => rfl
    | some d =>
      have h127 := (hashNode_some_inv n l2 r2 d hc).1
      omega

/-- An instance of C14: with `N = 200` the wrapped length is `144`, and `HashNode` fails
on two children of `400` bytes; with `N = 1`, children whose capacity is their length are
accepted when both have two bytes. -/
theorem C14_hashNode_returns_iff_witness :
    128 ≤ (New 200 sumDigest).NamespaceLen ∧ (New 200 sumDigest).NamespaceLen ≤ 255 ∧
      2 * (New 200 sumDigest).NamespaceLen % 256 = 144 ∧
      (New 200 sumDigest).HashNode ⟨List.replicate 400 0, []⟩ ⟨List.replicate 400 0, []⟩ =
        none ∧
      (Slice.mk [1, 1] []).cap = (Slice.mk [1, 1] []).len ∧
      ((New 1 sumDigest).HashNode ⟨[1, 1], []⟩ ⟨[3, 3], []⟩).isSome :=
  ⟨by decide, by decide, by decide,
    ((C14_hashNode_returns_iff (New 200 sumDigest) ⟨[], []⟩ ⟨[], []⟩).2.2.2
      (by decide) (by decide)).2 _ _,
    rfl,
    ((C14_hashNode_returns_iff (New 1 sumDigest) ⟨[1, 1], []⟩ ⟨[3, 3], []⟩).2.2.1 rfl rfl).mpr
      (by decide)⟩

/-! ## Binding of the children -/

/-- C15: `HashNode` binds a parent to both children, in order. For an accepted pair
`(l, r)` and a pair `(l2, r2)` whose left child is as long as `l` (in particular when all
four children have one common length), the strings written to the base digest are
`0x01 || l || r` and `0x01 || l2 || r2`, and they are equal only if `l = l2` and
`r = r2`; `HashNode(l, r) = HashNode(l2, r2)` is then a collision of the base digest on
these strings, so for a collision-free (injective) base digest it implies `l = l2` and
`r = r2`. -/
theorem C15_hashNode_binds_children (n : DefaultHasher) (l r l2 r2 : Slice)
    (hlen : l.len = l2.len) (hacc : (n.HashNode l r).isSome) :
    n.NamespaceLen ≤ 127 ∧
    (∃ h res, n.HashNodeState l r = some (h, res) ∧
      h.written = (1 : Byte) :: (l.data ++ r.data)) ∧
    (∀ h2 res2, n.HashNodeState l2 r2 = some (h2, res2) →
      h2.written = (1 : Byte) :: (l2.data ++ r2.data)) ∧
    ((1 : Byte) :: (l.data ++ r.data) = (1 : Byte) :: (l2.data ++ r2.data) →
      l.data = l2.data ∧ r.data = r2.data) ∧
    (n.HashNode l r = n.HashNode l2 r2 →
      n.Hash ((1 : Byte) :: (l.data ++ r.data)) =
        n.Hash ((1 : Byte) :: (l2.data ++ r2.data))) ∧
    (Function.Injective n.Hash → n.HashNode l r = n.HashNode l2 r2 →
      l.data = l2.data ∧ r.data = r2.data) := by
  obtain ⟨d, hd⟩ := Option.isSome_iff_exists.mp hacc
  obtain ⟨hN, hl, hr, _⟩ := hashNode_some_inv n l r d hd
  have hbind : (1 : Byte) :: (l.data ++ r.data) = (1 : Byte) :: (l2.data ++ r2.data) →
      l.data = l2.data ∧ r.data = r2.data :=
    fun he => List.append_inj (List.cons.inj he).2 hlen
  have hcol : n.HashNode l r = n.HashNode l2 r2 →
      n.Hash ((1 : Byte) :: (l.data ++ r.data)) =
        n.Hash ((1 : Byte) :: (l2.data ++ r2.data)) := by
    intro he
    have hd2 : n.HashNode l2 r2 = some d := he ▸ hd
    have f1 := (hashNode_fields n l r d hd).2.2
    have f2 := (hashNode_fields n l2 r2 d hd2).2.2
    exact f1.symm.trans f2
  refine ⟨hN, ⟨_, _, hashNodeState_of_le n l r hN hl hr, rfl⟩, ?_, hbind, hcol,
    fun hinj he => hbind (hinj (hcol he))⟩
  intro h2 res2 hs
  have hsome : (n.HashNodeState l2 r2).isSome := by rw [hs]; rfl
  obtain ⟨_, hl2, hr2⟩ := (hashNodeState_isSome_iff n l2 r2).mp hsome
  rw [hashNodeState_of_le n l2 r2 hN hl2 hr2] at hs
  rw [← (Prod.mk.inj (Option.some.inj hs)).1]
  rfl

/-- An instance of C15 with the identity as (collision-free) base digest: the digest of
`([1, 1, 7], [3, 3, 9])` is not the digest of the swapped pair. -/
theorem C15_hashNode_binds_children_witness :
    (Slice.mk [1, 1, 7] []).len = (Slice.mk [3, 3, 9] []).len ∧
      (New 1 id).HashNode ⟨[1, 1, 7], []⟩ ⟨[3, 3, 9], []⟩ =
        some [1, 3, 1, 1, 1, 7, 3, 3, 9] ∧
      (New 1 id).HashNode ⟨[3, 3, 9], []⟩ ⟨[1, 1, 7], []⟩ =
        some [1, 3, 1, 3, 3, 9, 1, 1, 7] ∧
      Function.Injective (New 1 id).Hash ∧
      (New 1 id).HashNode ⟨[1, 1, 7], []⟩ ⟨[3, 3, 9], []⟩ ≠
        (New 1 id).HashNode ⟨[3, 3, 9], []⟩ ⟨[1, 1, 7], []⟩ := by
  have h1 : (New 1 id).HashNode ⟨[1, 1, 7], []⟩ ⟨[3, 3, 9], []⟩ =
      some [1, 3, 1, 1, 1, 7, 3, 3, 9] := by decide
  have h2 : (New 1 id).HashNode ⟨[3, 3, 9], []⟩ ⟨[1, 1, 7], []⟩ =
      some [1, 3, 1, 3, 3, 9, 1, 1, 7] := by decide
  have h3 : Function.Injective (New 1 id).Hash := Function.injective_id
  have hacc : ((New 1 id).HashNode ⟨[1, 1, 7], []⟩ ⟨[3, 3, 9], []⟩).isSome := by
    rw [h1]; rfl
  refine ⟨rfl, h1, h2, h3, fun he => ?_⟩
  have hc := (C15_hashNode_binds_children (New 1 id) ⟨[1, 1, 7], []⟩ ⟨[3, 3, 9], []⟩
    ⟨[3, 3, 9], []⟩ ⟨[1, 1, 7], []⟩ rfl hacc).2.2.2.2.2 h3 he
  have hne : ([1, 1, 7] : List Byte) ≠ [3, 3, 9] := by decide
  exact hne hc.1

/-! ## Algebra of the range aggregation -/

theorem take_two_mul (d : List Byte) (k : Nat) :
    d.take (2 * k) = d.take k ++ (d.drop k).take k := by
  rw [two_mul, List.take_add]

/-- C16: range aggregation in `HashNode` is symmetric and idempotent. If `HashNode(l, r)`
returns a digest then so does `HashNode(r, l)`, and the first `2 * N` bytes of the two
digests are equal (also when the compared namespace IDs tie); and the first `2 * N` bytes
of a digest returned by `HashNode(l, l)` are `l[0:N] || l[N:2N]`. -/
theorem C16_range_symmetric_idempotent (n : DefaultHasher) (l r : Slice) :
    (∀ d, n.HashNode l r = some d →
      ∃ d2, n.HashNode r l = some d2 ∧
        d.take (2 * n.NamespaceLen) = d2.take (2 * n.NamespaceLen)) ∧
    (∀ d, n.HashNode l l = some d →
      d.take (2 * n.NamespaceLen) =
        l.array.take n.NamespaceLen ++ (l.array.drop n.NamespaceLen).take n.NamespaceLen) := by
  refine ⟨?_, ?_⟩
  · intro d hd
    obtain ⟨hN, hl, hr, _⟩ := hashNode_some_inv n l r d hd
    obtain ⟨d2, hd2⟩ : ∃ d2, n.HashNode r l = some d2 := ⟨_, hashNode_of_le n r l hN hr hl⟩
    refine ⟨d2, hd2, ?_⟩
    obtain ⟨a1, a2, _⟩ := hashNode_fields n l r d hd
    obtain ⟨b1, b2, _⟩ := hashNode_fields n r l d2 hd2
    rw [take_two_mul, take_two_mul, a1, a2, b1, b2, min_comm, max_comm]
  · intro d hd
    obtain ⟨a1, a2, _⟩ := hashNode_fields n l l d hd
    rw [take_two_mul, a1, a2, min_self, max_self]

/-- An instance of C16: children whose `minNamespace` fields tie. -/
theorem C16_range_symmetric_idempotent_witness :
    (New 1 sumDigest).HashNode ⟨[1, 1, 7], []⟩ ⟨[1, 3, 9], []⟩ = some [1, 3, 23] ∧
      ∃ d2, (New 1 sumDigest).HashNode ⟨[1, 3, 9], []⟩ ⟨[1, 1, 7], []⟩ = some d2 ∧
        [(1 : Byte), 3, 23].take (2 * 1) = d2.take (2 * 1) := by
  have h : (New 1 sumDigest).HashNode ⟨[1, 1, 7], []⟩ ⟨[1, 3, 9], []⟩ = some [1, 3, 23] := by
    decide
  exact ⟨h, (C16_range_symmetric_idempotent (New 1 sumDigest) ⟨[1, 1, 7], []⟩
    ⟨[1, 3, 9], []⟩).1 _ h⟩

/-! ## The hash part of a leaf digest -/

/-- C17: the hash part of a leaf digest does not depend on the namespace ID of the leaf.
For two leaves of length at least `N` with the same data part `leaf[N:]`, `HashLeaf`
returns digests whose bytes after the first `2 * N` are equal; the namespace ID appears in
the first `2 * N` bytes only, which are the namespace ID twice. -/
theorem C17_leaf_hash_ignores_namespace (n : DefaultHasher) (leaf1 leaf2 : Slice)
    (h1 : n.NamespaceLen ≤ leaf1.len) (h2 : n.NamespaceLen ≤ leaf2.len)
    (hdata : leaf1.data.drop n.NamespaceLen = leaf2.data.drop n.NamespaceLen) :
    ∃ d1 d2, n.HashLeaf leaf1 = some d1 ∧ n.HashLeaf leaf2 = some d2 ∧
      d1.drop (2 * n.NamespaceLen) = d2.drop (2 * n.NamespaceLen) ∧
      d1.drop (2 * n.NamespaceLen) = n.Hash ((0 : Byte) :: leaf1.data.drop n.NamespaceLen) ∧
      d1.take (2 * n.NamespaceLen) =
        leaf1.data.take n.NamespaceLen ++ leaf1.data.take n.NamespaceLen ∧
      d2.take (2 * n.NamespaceLen) =
        leaf2.data.take n.NamespaceLen ++ leaf2.data.take n.NamespaceLen := by
  obtain ⟨d1, e1⟩ : ∃ d1, n.HashLeaf leaf1 = some d1 := ⟨_, hashLeaf_of_le n leaf1 h1⟩
  obtain ⟨d2, e2⟩ : ∃ d2, n.HashLeaf leaf2 = some d2 := ⟨_, hashLeaf_of_le n leaf2 h2⟩
  obtain ⟨a1, a2, a3⟩ := hashLeaf_fields n leaf1 d1 e1
  obtain ⟨b1, b2, b3⟩ := hashLeaf_fields n leaf2 d2 e2
  refine ⟨d1, d2, e1, e2, ?_, a3, ?_, ?_⟩
  · rw [a3, b3, hdata]
  · rw [take_two_mul, a1, a2]
  · rw [take_two_mul, b1, b2]

/-- An instance of C17: the leaves `[0x01, 0x41]` and `[0x03, 0x41]` under `N = 1`. -/
theorem C17_leaf_hash_ignores_namespace_witness :
    (New 1 sumDigest).HashLeaf ⟨[0x01, 0x41], []⟩ = some [0x01, 0x01, 0x41] ∧
      (New 1 sumDigest).HashLeaf ⟨[0x03, 0x41], []⟩ = some [0x03, 0x03, 0x41] ∧
      ∃ d1 d2, (New 1 sumDigest).HashLeaf ⟨[0x01, 0x41], []⟩ = some d1 ∧
        (New 1 sumDigest).HashLeaf ⟨[0x03, 0x41], []⟩ = some d2 ∧
        d1.drop (2 * 1) = d2.drop (2 * 1) := by
  obtain ⟨d1, d2, e1, e2, e3, _⟩ := C17_leaf_hash_ignores_namespace (New 1 sumDigest)
    ⟨[0x01, 0x41], []⟩ ⟨[0x03, 0x41], []⟩ (by decide) (by decide) rfl
  exact ⟨by decide, by decide, d1, d2, e1, e2, e3⟩

end defaulthasher
